import Mathlib

set_option linter.unusedVariables false

/-!
Shallow embedding of the modal key-mapping engine of
`src/common/content/mappings.js` (vimperator-labs).

Binding objects are shared by reference between the per-mode tables in the
JavaScript source, so the embedding keeps an explicit heap:
`MappingsState.heap` is the list of allocated `Map` objects and the mode
tables (`main` for default mappings, `user` for user mappings) store heap
indices ("refs").  Mode tables are association lists from mode id to a ref
list, with absent modes reading as the empty list (matching the
`stack[mode] || []` idiom of the source).  All definitions are direct
translations of the source; the only definitions written from the spec
rather than from the source carry a doc comment starting with
`Modelled from the spec:`.
-/

/-- Values passed to and returned from mapping actions.  The engine only
ever forwards key-sequence strings, counts and literal arguments. -/
inductive Val where
  | str : String → Val
  | num : Int → Val
  | undef : Val
deriving DecidableEq, Repr

/-- The `Map` class of the source (one key-mapping binding).  The opaque
JavaScript `action` function is represented by an action id, resolved
through an action environment `Nat → List Val → Val` where needed. -/
structure Map where
  modes : List Nat
  names : List String
  description : String
  action : Nat
  arg : Bool
  count : Bool
  motion : Bool
  route : Bool
  noremap : Bool
  silent : Bool
  rhs : Option String
  user : Bool
deriving DecidableEq, Repr

/-- The `extraInfo` hash accepted by the `Map` constructor; every field
defaults to false / null exactly as reading a missing property does. -/
structure ExtraInfo where
  arg : Bool := false
  count : Bool := false
  motion : Bool := false
  route : Bool := false
  noremap : Bool := false
  silent : Bool := false
  rhs : Option String := none
  user : Bool := false
deriving DecidableEq, Repr

/-- Modelled from the spec: the external collaborators of the engine that
are not implemented in `mappings.js` — the pure key canonicalization
function `events.canonicalKeys` and the process-wide `mapleader` variable
read through `liberator.variableReference` (absent when the user never set
it). -/
structure Ctx where
  canonicalKeys : String → String
  mapleader : Option String

/-- The `Map` constructor: stores the modes, canonicalizes the key names,
and reads each option of `extraInfo` with its falsy default (note that
`extraInfo.rhs || null` turns an empty-string rhs into null). -/
def mkMap (ctx : Ctx) (modes : List Nat) (keys : List String) (description : String)
    (action : Nat) (extraInfo : ExtraInfo) : Map :=
  { modes := modes
    names := keys.map ctx.canonicalKeys
    description := description
    action := action
    arg := extraInfo.arg
    count := extraInfo.count
    motion := extraInfo.motion
    route := extraInfo.route
    noremap := extraInfo.noremap
    silent := extraInfo.silent
    rhs := match extraInfo.rhs with
      | some "" => none
      | r => r
    user := extraInfo.user }

/-- `Map.prototype.hasName`: exact membership test against `names`
(`this.names.indexOf(name) >= 0`). -/
def Map.hasName (m : Map) (name : String) : Bool :=
  m.names.contains name

/-- `Map.prototype.execute`: builds the argument list by appending, in
order, the motion (if `this.motion`), the count (if `this.count`) and the
argument (if `this.arg`); unless the primary name is `"."` it stores a
closure replaying this exact call in the process-wide `mappings.repeat`
slot (modelled as an `(action id, argument list)` pair); finally it invokes
the action and returns its result.  The repeat slot is threaded in and
out explicitly. -/
def Map.execute (acts : Nat → List Val → Val) (m : Map)
    (rep : Option (Nat × List Val)) (motion count argument : Val) :
    Val × Option (Nat × List Val) :=
  let args : List Val := []
  let args := if m.motion then args ++ [motion] else args
  let args := if m.count then args ++ [count] else args
  let args := if m.arg then args ++ [argument] else args
  let rep' := if m.names.head? ≠ some "." then some (m.action, args) else rep
  (acts m.action args, rep')

/-- Invoking the stored zero-argument repeat closure
(`function () self.action.apply(self, args)`). -/
def invokeRepeat (acts : Nat → List Val → Val) :
    Option (Nat × List Val) → Option Val
  | none => none
  | some p => some (acts p.1 p.2)

namespace Mappings

/-- `getMapLeader`: the value of the `mapleader` variable when the
reference exists, and the backslash default otherwise. -/
def getMapLeader (ctx : Ctx) : String :=
  ctx.mapleader.getD "\\"

/-- The characters of the placeholder `<leader>`, lower-cased; the regex
`/<Leader>/i` matches a substring exactly when its lower-cased characters
are this list. -/
def leaderToken : List Char := ['<', 'l', 'e', 'a', 'd', 'e', 'r', '>']

/-- ECMAScript GetSubstitution applied to a string replacement: `$$`
yields `$`, `$&` the matched text, `$` followed by a backquote
(U+0060) the part of the subject before the match, `$` followed by an
apostrophe (U+0027) the part after the match; since `/<Leader>/i` has no
capture groups, every other `$`-sequence (including `$1`…, `$<`… and a
trailing lone `$`) passes through literally. -/
def getSubstitution (matched before after : List Char) : List Char → List Char
  | [] => []
  | [c] => [c]
  | c :: d :: rest2 =>
    if c = '$' then
      if d = '$' then '$' :: getSubstitution matched before after rest2
      else if d = '&' then matched ++ getSubstitution matched before after rest2
      else if d = Char.ofNat 96 then before ++ getSubstitution matched before after rest2
      else if d = Char.ofNat 39 then after ++ getSubstitution matched before after rest2
      else '$' :: getSubstitution matched before after (d :: rest2)
    else c :: getSubstitution matched before after (d :: rest2)

/-- First-occurrence, case-insensitive replacement of the 8-character
`<Leader>` token, as performed by
`keyString.replace(/<Leader>/i, leader)`: a non-global regex replaces
only the leftmost match, and the replacement string goes through
GetSubstitution with the matched text, the prefix before the match
(accumulated in `before`) and the suffix after it. -/
def replaceLeaderAux (leader before : List Char) : List Char → List Char
  | [] => []
  | c :: rest =>
    if ((c :: rest).take 8).map Char.toLower = leaderToken then
      getSubstitution ((c :: rest).take 8) before (rest.drop 7) leader ++ rest.drop 7
    else c :: replaceLeaderAux leader (before ++ [c]) rest

/-- `expandLeader`: replaces the first case-insensitive `<Leader>` token
with the current map leader (as a JS replacement string, so
`$`-patterns in the leader are substituted, not literal). -/
def expandLeader (ctx : Ctx) (keyString : String) : String :=
  ⟨replaceLeaderAux (getMapLeader ctx).data [] keyString.data⟩

/-- Modelled from the spec: `expandLeader` as the spec words it — the
case-insensitive `<Leader>` placeholder is replaced with the current
leader string itself, inserted literally.  Kept for comparison with the
source's `expandLeader`, whose `String.replace` applies the JS
`$`-substitution to the replacement string. -/
def expandLeaderSpecChars (leader : List Char) : List Char → List Char
  | [] => []
  | c :: rest =>
    if ((c :: rest).take 8).map Char.toLower = leaderToken then
      leader ++ rest.drop 7
    else c :: expandLeaderSpecChars leader rest

/-- Modelled from the spec: literal-insertion leader expansion (see
`expandLeaderSpecChars`). -/
def expandLeaderSpec (ctx : Ctx) (keyString : String) : String :=
  ⟨expandLeaderSpecChars (getMapLeader ctx).data keyString.data⟩

/-- An ECMAScript LineTerminator: `\n`, `\r`, U+2028 (LINE SEPARATOR) or
U+2029 (PARAGRAPH SEPARATOR).  The regex atom `.` matches any character
except these four. -/
def isLineTerminator (c : Char) : Bool :=
  c = '\n' || c = '\r' || c = '\u2028' || c = '\u2029'

/-- Scans for a `>` reachable through non-LineTerminator characters: the
`.*>` tail of the regex `/^<.+>/` (`.` matches anything but a
LineTerminator). -/
def gtScan : List Char → Bool
  | [] => false
  | c :: rest => c = '>' || (!isLineTerminator c && gtScan rest)

/-- The `.+>` part of `/^<.+>/`: at least one non-LineTerminator
character followed (possibly after more non-LineTerminator characters)
by `>`. -/
def dotPlusGt : List Char → Bool
  | [] => false
  | c :: rest => !isLineTerminator c && gtScan rest

/-- `/^<.+>/.test(name)`: the name starts with `<`, then one or more
non-newline characters, then `>`. -/
def bracketTest (s : String) : Bool :=
  match s.data with
  | '<' :: t => dotPlusGt t
  | _ => false

/-- A mode table: association list from mode id to the ordered ref list of
that mode (the sparse JavaScript arrays `main` and `user`). -/
abbrev ModeTable := List (Nat × List Nat)

/-- Reading `stack[mode] || []`. -/
def tableGet (t : ModeTable) (mode : Nat) : List Nat :=
  match t with
  | [] => []
  | p :: rest => if p.1 = mode then p.2 else tableGet rest mode

/-- Writing `stack[mode] = l` (JavaScript object keys are unique, so the
first entry for the mode is replaced, and a missing mode is created). -/
def tableSet (t : ModeTable) (mode : Nat) (l : List Nat) : ModeTable :=
  match t with
  | [] => [(mode, l)]
  | p :: rest => if p.1 = mode then (mode, l) :: rest else p :: tableSet rest mode l

/-- The private state of the `Mappings` closure: the object heap and the
two mode-indexed tables of refs (`main` holds default mappings, `user`
holds user mappings). -/
structure MappingsState where
  heap : List Map
  main : ModeTable
  user : ModeTable
deriving DecidableEq, Repr

/-- The state right after construction, before any mapping is added (the
eager per-mode initialization to `[]` is observationally the absent entry
of the association list). -/
def emptyState : MappingsState := ⟨[], [], []⟩

/-- Whether the binding object at `ref` currently answers to the key
sequence `cmd` (`map.hasName(cmd)`); a dangling ref answers to nothing. -/
def holdsName (heap : List Map) (cmd : String) (ref : Nat) : Bool :=
  match heap[ref]? with
  | some m => m.hasName cmd
  | none => false

/-- `where[mode].push(map)` over every mode of the binding, in order. -/
def pushModes (t : ModeTable) (ref : Nat) : List Nat → ModeTable
  | [] => t
  | mode :: rest => pushModes (tableSet t mode (tableGet t mode ++ [ref])) ref rest

/-- The private `addMap`: allocates the binding object and appends its ref
to `user[mode]` or `main[mode]` for each of its modes, depending on
`map.user`. -/
def addMap (st : MappingsState) (m : Map) : MappingsState :=
  let ref := st.heap.length
  if m.user then
    { st with heap := st.heap ++ [m], user := pushModes st.user ref m.modes }
  else
    { st with heap := st.heap ++ [m], main := pushModes st.main ref m.modes }

/-- The private `getMap`: first binding of `stack[mode]` matching `cmd`,
or null. -/
def getMap (heap : List Map) (stack : ModeTable) (mode : Nat) (cmd : String) :
    Option Nat :=
  (tableGet stack mode).find? (holdsName heap cmd)

/-- `map.names.splice(j, 1)` at the first `j` with `names[j] == cmd`. -/
def removeFirst (cmd : String) : List String → List String
  | [] => []
  | n :: rest => if n = cmd then rest else n :: removeFirst cmd rest

/-- The scanning loop of the private `removeMap`: walks the ref list of a
mode, splices `cmd` out of the names of the first binding holding it, and
drops that binding from the list when its name list becomes empty.
Returns the (possibly) updated heap and ref list. -/
def removeMapGo (heap : List Map) (cmd : String) : List Nat → List Map × List Nat
  | [] => (heap, [])
  | ref :: rest =>
    match heap[ref]? with
    | some m =>
      if m.hasName cmd then
        let names' := removeFirst cmd m.names
        let heap' := heap.set ref { m with names := names' }
        if names'.isEmpty then (heap', rest) else (heap', ref :: rest)
      else
        let p := removeMapGo heap cmd rest
        (p.1, ref :: p.2)
    | none =>
      let p := removeMapGo heap cmd rest
      (p.1, ref :: p.2)

/-- The private `removeMap(mode, cmd)`: operates on `user[mode] || []`. -/
def removeMap (st : MappingsState) (mode : Nat) (cmd : String) : MappingsState :=
  let p := removeMapGo st.heap cmd (tableGet st.user mode)
  { st with heap := p.1, user := tableSet st.user mode p.2 }

/-- The public `remove(mode, cmd)`. -/
def remove (st : MappingsState) (mode : Nat) (cmd : String) : MappingsState :=
  removeMap st mode cmd

/-- The public `removeAll(mode)`: `user[mode] = []`. -/
def removeAll (st : MappingsState) (mode : Nat) : MappingsState :=
  { st with user := tableSet st.user mode [] }

/-- Modelled from the spec: the `modes.NORMAL` mask of the external modes
module, used by `get`/`getDefault` as the fallback for a falsy mode
argument.  Its concrete numeric value lives outside this file; any fixed
nonzero value is faithful. -/
def NORMAL : Nat := 1

/-- The public `get(mode, cmd)`: a falsy mode defaults to NORMAL, then the
user table is consulted before the default table
(`getMap(..., user) || getMap(..., main)`). -/
def get (st : MappingsState) (mode : Nat) (cmd : String) : Option Nat :=
  let mode := if mode = 0 then NORMAL else mode
  (getMap st.heap st.user mode cmd).orElse fun _ => getMap st.heap st.main mode cmd

/-- The public `getDefault(mode, cmd)`: default table only. -/
def getDefault (st : MappingsState) (mode : Nat) (cmd : String) : Option Nat :=
  let mode := if mode = 0 then NORMAL else mode
  getMap st.heap st.main mode cmd

/-- The public `hasMap(mode, cmd)`: `user[mode].some(map => map.hasName(cmd))`. -/
def hasMap (st : MappingsState) (mode : Nat) (cmd : String) : Bool :=
  (tableGet st.user mode).any (holdsName st.heap cmd)

/-- The inner loop of `getCandidates`: for each name of the binding that
starts with (and is strictly longer than) the typed string, the binding is
pushed once — except that for the bare `"<"` string a name that looks like
a fully bracketed `<x>` token is skipped. -/
def candidateNames (pre : String) (ref : Nat) (m : Map) : List Nat :=
  m.names.flatMap fun name =>
    if pre.data.isPrefixOf name.data = true ∧ pre.length < name.length then
      if pre ≠ "<" ∨ bracketTest name = false then [ref] else []
    else []

/-- The public `getCandidates(mode, prefixString)`: scans
`user[mode].concat(main[mode])` and collects, with multiplicity, every
binding having a matching name. -/
def getCandidates (st : MappingsState) (mode : Nat) (pre : String) : List Nat :=
  (tableGet st.user mode ++ tableGet st.main mode).flatMap fun ref =>
    match st.heap[ref]? with
    | some m => candidateNames pre ref m
    | none => []

/-- The `rhs` of the binding object at `ref` (`map.rhs`, null when the
binding is backed by code). -/
def refRhs (heap : List Map) (ref : Nat) : Option String :=
  match heap[ref]? with
  | some m => m.rhs
  | none => none

/-- The primary name of the binding object at `ref` (`map.names[0]`,
undefined when the name list is empty). -/
def refPrimary (heap : List Map) (ref : Nat) : Option String :=
  match heap[ref]? with
  | some m => m.names.head?
  | none => none

/-- The private `mappingsIterator(modes, stack)`: iterates the bindings of
the first listed mode and keeps those whose `(rhs, names[0])` pair has a
counterpart in the table of every other listed mode. -/
def mappingsIterator (heap : List Map) (stack : ModeTable) : List Nat → List Nat
  | [] => []
  | first :: rest =>
    (tableGet stack first).filter fun ref =>
      rest.all fun mode =>
        (tableGet stack mode).any fun r2 =>
          refRhs heap r2 == refRhs heap ref && refPrimary heap r2 == refPrimary heap ref

/-- The public `getUserIterator(modes)`. -/
def getUserIterator (st : MappingsState) (modeList : List Nat) : List Nat :=
  mappingsIterator st.heap st.user modeList

/-- The public `add(modes, keys, description, action, extra)`: constructs
the binding and hands it to `addMap`. -/
def add (ctx : Ctx) (st : MappingsState) (modes : List Nat) (keys : List String)
    (description : String) (action : Nat) (extraInfo : ExtraInfo) : MappingsState :=
  addMap st (mkMap ctx modes keys description action extraInfo)

/-- The inner loop of `addUserMap`'s removal phase: `removeMap(mode, name)`
over every mode, for one name. -/
def removeNameModes (st : MappingsState) (cmd : String) : List Nat → MappingsState
  | [] => st
  | mode :: rest => removeNameModes (removeMap st mode cmd) cmd rest

/-- The removal phase of `addUserMap`: for each name of the new binding,
remove any old user binding answering to it in each of the new binding's
modes. -/
def removeOld (st : MappingsState) (modeList : List Nat) : List String → MappingsState
  | [] => st
  | cmd :: rest => removeOld (removeNameModes st cmd modeList) modeList rest

/-- The public `addUserMap(modes, keys, description, action, extra)`:
expands the leader in the keys, forces `user = true`, defaults the
description, removes all old user mappings to the new key sequences, then
adds the new binding. -/
def addUserMap (ctx : Ctx) (st : MappingsState) (modes : List Nat) (keys : List String)
    (description : String) (action : Nat) (extraInfo : ExtraInfo) : MappingsState :=
  let keys := keys.map (expandLeader ctx)
  let m := mkMap ctx modes keys
    (if description = "" then "User defined mapping" else description) action
    { extraInfo with user := true }
  addMap (removeOld st m.modes m.names) m

/-- The public `addMode(mode)`. -/
def addMode (st : MappingsState) (mode : Nat) : MappingsState :=
  if (st.user.any fun p => p.1 = mode) || (st.main.any fun p => p.1 = mode) then st
  else { st with main := tableSet st.main mode [], user := tableSet st.user mode [] }

/-- Modelled from the spec: the `ConfigurationError` of the error-handling
design, raised by `addDefault` when the mode set of the registered binding
is empty.  No such error exists anywhere in the source. -/
inductive ConfigurationError where
  | emptyModes
deriving DecidableEq, Repr

/-- Modelled from the spec: `addDefault(binding)` as the spec words it —
fails with a `ConfigurationError` when `binding.modes` is empty, otherwise
registers through `addMap`.  Kept for comparison against the source's
`addMap`, which never fails. -/
def addDefaultSpec (st : MappingsState) (m : Map) : Except ConfigurationError MappingsState :=
  if m.modes.isEmpty then Except.error ConfigurationError.emptyModes
  else Except.ok (addMap st m)

/-- The number of user bindings of a mode answering to a name. -/
def nameCount (st : MappingsState) (mode : Nat) (cmd : String) : Nat :=
  (tableGet st.user mode).countP (holdsName st.heap cmd)

/-- Every ref stored in a user table points into the heap. -/
def WF (st : MappingsState) : Prop :=
  ∀ mode, ∀ ref ∈ tableGet st.user mode, ref < st.heap.length

/-- In every mode, at most one user binding answers to each name. -/
def UniqueUser (st : MappingsState) : Prop :=
  ∀ mode cmd, nameCount st mode cmd ≤ 1

/-- No user binding lists the same canonical name twice. -/
def NamesDupFree (st : MappingsState) : Prop :=
  ∀ mode, ∀ ref ∈ tableGet st.user mode, ∀ m, st.heap[ref]? = some m →
    ∀ cmd, m.names.count cmd ≤ 1

end Mappings

open Mappings

/-- A context with identity canonicalization and no `mapleader` variable
set (so the leader is the backslash default). -/
def ctx0 : Ctx := ⟨fun s => s, none⟩

section HelperLemmas

lemma mem_candidateNames {pre : String} {r x : Nat} {m : Map} :
    x ∈ candidateNames pre r m ↔
      x = r ∧ ∃ nm ∈ m.names, pre.data.isPrefixOf nm.data = true ∧
        pre.length < nm.length ∧ (pre = "<" → bracketTest nm = false) := by
  simp only [candidateNames, List.mem_flatMap]
  constructor
  · rintro ⟨nm, hnm, hx⟩
    split_ifs at hx with h1 h2
    · simp only [List.mem_singleton] at hx
      subst hx
      exact ⟨rfl, nm, hnm, h1.1, h1.2, fun hp => h2.resolve_left (not_not_intro hp)⟩
    · simp at hx
    · simp at hx
  · rintro ⟨rfl, nm, hnm, h1, h2, h3⟩
    refine ⟨nm, hnm, ?_⟩
    rw [if_pos ⟨h1, h2⟩, if_pos ?_]
    · simp
    · by_cases hp : pre = "<"
      · exact Or.inr (h3 hp)
      · exact Or.inl hp

end HelperLemmas

def c1Map : Map := mkMap ctx0 [] ["x"] "" 0 {}

/-- Claim C1, counterexample: at the concrete empty-mode-set default
binding `c1Map`, the spec-modelled `addDefault` raises a
`ConfigurationError` while the source's `addMap` raises nothing — it
returns a normal state whose default and user tables are exactly the
initial ones (the binding was appended to no mode). -/
theorem C1_counterexample :
    addDefaultSpec emptyState c1Map = Except.error ConfigurationError.emptyModes ∧
    addMap emptyState c1Map = { emptyState with heap := [c1Map] } :=
  ⟨rfl, rfl⟩

/-- Claim C1 (amended): registering a default binding whose mode set is
empty raises no error: the registration call completes normally, appends
the binding object to no mode table, and leaves both the default and the
user table exactly as they were. -/
theorem C1_addDefault_emptyModes (ctx : Ctx) (st : MappingsState)
    (keys : List String) (descr : String) (act : Nat) (extra : ExtraInfo)
    (hu : extra.user = false) :
    Mappings.add ctx st [] keys descr act extra =
      { st with heap := st.heap ++ [mkMap ctx [] keys descr act extra] } := by
  simp [Mappings.add, addMap, mkMap, pushModes, hu]

/-- Witness for C1: the amended statement applied at a concrete default
registration with an empty mode set. -/
theorem C1_addDefault_emptyModes_witness :
    Mappings.add ctx0 emptyState [] ["x"] "" 0 {} =
      { emptyState with heap := [mkMap ctx0 [] ["x"] "" 0 {}] } :=
  C1_addDefault_emptyModes ctx0 emptyState ["x"] "" 0 {} rfl

def c2St1 : MappingsState := addUserMap ctx0 emptyState [1] ["x", "x"] "" 0 {}

def c2St2 : MappingsState := addUserMap ctx0 c2St1 [1] ["x"] "" 1 {}

/-- Claim C2, counterexample: user binding b1 is registered with the
duplicated name list `["x", "x"]`, then user binding b2 with name `"x"`
in the same mode.  `addUserMap`'s removal phase splices only the first
`"x"` out of b1, so b1 still answers to `"x"` and — being earlier in the
table — shadows b2: lookup returns ref 0 (b1, action 0), not ref 1 (b2),
so the reachable binding for (mode 1, "x") is not b2. -/
theorem C2_counterexample :
    Mappings.get c2St2 1 "x" = some 0 ∧
    c2St2.heap[1]? = some (mkMap ctx0 [1] ["x"] "User defined mapping" 1 { user := true }) ∧
    getMap c2St2.heap c2St2.user 1 "x" ≠ some 1 := by
  refine ⟨by decide, by decide, by decide⟩

def c3St1 : MappingsState := addUserMap ctx0 emptyState [1, 2] ["x"] "" 0 { rhs := some "y" }

/-- Claim C3: the cross-mode consistency view iterates the bindings of the
first listed mode and yields exactly those whose `(rhs, primary name)`
pair has a counterpart with the same rhs and primary name in the table of
every other listed mode; registering one identical user binding under
modes {1, 2} makes the view over [1, 2] yield exactly that one entry, and
removing the mode-2 copy makes it yield none. -/
theorem C3_consistent_view :
    (∀ (heap : List Map) (stack : ModeTable) (first : Nat) (rest : List Nat) (ref : Nat),
       ref ∈ mappingsIterator heap stack (first :: rest) ↔
         ref ∈ tableGet stack first ∧
           ∀ md ∈ rest, ∃ r2 ∈ tableGet stack md,
             refRhs heap r2 = refRhs heap ref ∧
             refPrimary heap r2 = refPrimary heap ref) ∧
    mappingsIterator c3St1.heap c3St1.user [1, 2] = [0] ∧
    mappingsIterator (remove c3St1 2 "x").heap (remove c3St1 2 "x").user [1, 2] = [] := by
  refine ⟨?_, by decide, by decide⟩
  intro heap stack first rest ref
  simp [mappingsIterator, List.mem_filter, List.all_eq_true, List.any_eq_true,
    Bool.and_eq_true, beq_iff_eq]

/-- Claim C4: whenever the user table of a mode matches a name, `get`
returns that user match (the user layer shadows the default layer); when
the user table has no match, `get` falls through to the default table;
when neither matches, `get` returns the absent value `none` rather than
failing. -/
theorem C4_user_shadows_default (st : MappingsState) (mode : Nat) (cmd : String)
    (h0 : mode ≠ 0) :
    (∀ r, getMap st.heap st.user mode cmd = some r → Mappings.get st mode cmd = some r) ∧
    (getMap st.heap st.user mode cmd = none →
       Mappings.get st mode cmd = getMap st.heap st.main mode cmd) ∧
    (getMap st.heap st.user mode cmd = none → getMap st.heap st.main mode cmd = none →
       Mappings.get st mode cmd = none) := by
  refine ⟨?_, ?_, ?_⟩
  · intro r h
    simp [Mappings.get, h0, h, Option.orElse]
  · intro h
    simp [Mappings.get, h0, h, Option.orElse]
  · intro h h'
    simp [Mappings.get, h0, h, h', Option.orElse]

def c4St : MappingsState := addUserMap ctx0 (add ctx0 emptyState [1] ["x"] "" 0 {}) [1] ["x"] "" 1 {}

/-- Witness for C4: in a state where mode 1 holds a default binding
(ref 0) and a user binding (ref 1) both named `"x"`, lookup returns the
user binding; lookup of an unbound name returns `none`. -/
theorem C4_user_shadows_default_witness :
    Mappings.get c4St 1 "x" = some 1 ∧ Mappings.get c4St 1 "zz" = none :=
  ⟨(C4_user_shadows_default c4St 1 "x" (by decide)).1 1 (by decide),
   (C4_user_shadows_default c4St 1 "zz" (by decide)).2.2 (by decide) (by decide)⟩

def c5St : MappingsState :=
  add ctx0 (add ctx0 (add ctx0 emptyState [1] ["d"] "" 0 {}) [1] ["dw"] "" 1 {}) [1] ["dd"] "" 2 {}

def c5StB : MappingsState :=
  add ctx0 (add ctx0 emptyState [1] ["<C-x>"] "" 0 {}) [1] ["<a"] "" 1 {}

def c5StC : MappingsState := add ctx0 emptyState [1] ["<a\rb>"] "" 0 {}

/-- Claim C5: a binding is among the prefix candidates of a mode exactly
when it sits in the union of the user and default tables of the mode and
has some name that starts with the typed string and is strictly longer —
except that for the bare `"<"` the name must not match `^<.+>`.  With
bindings named "d" (ref 0), "dw" (ref 1), "dd" (ref 2), the candidates
for "d" are exactly [1, 2]; with "<C-x>" (ref 0) and "<a" (ref 1), the
candidates for "<" are exactly [1]; and since the regex atom `.` matches
no LineTerminator, a name like "<a\rb>" does not match `^<.+>` and is
kept as a candidate for "<". -/
theorem C5_candidates :
    (∀ (st : MappingsState) (mode : Nat) (pre : String) (ref : Nat),
       ref ∈ getCandidates st mode pre ↔
         (ref ∈ tableGet st.user mode ∨ ref ∈ tableGet st.main mode) ∧
           ∃ m, st.heap[ref]? = some m ∧
             ∃ nm ∈ m.names, pre.data.isPrefixOf nm.data = true ∧
               pre.length < nm.length ∧ (pre = "<" → bracketTest nm = false)) ∧
    getCandidates c5St 1 "d" = [1, 2] ∧
    getCandidates c5StB 1 "<" = [1] ∧
    getCandidates c5StC 1 "<" = [0] := by
  refine ⟨?_, by decide, by decide, by decide⟩
  intro st mode pre ref
  simp only [getCandidates, List.mem_flatMap, List.mem_append]
  constructor
  · rintro ⟨r, hr, hx⟩
    cases hm : st.heap[r]? with
    | none => rw [hm] at hx; simp at hx
    | some m =>
      rw [hm] at hx
      obtain ⟨rfl, hrest⟩ := mem_candidateNames.mp hx
      exact ⟨hr, m, hm, hrest⟩
  · rintro ⟨hr, m, hm, hrest⟩
    refine ⟨ref, hr, ?_⟩
    rw [hm]
    exact mem_candidateNames.mpr ⟨rfl, hrest⟩

/-- Witness for C5: the characterization applied at the concrete "d"
scenario: ref 1 ("dw") is a candidate because its name extends "d". -/
theorem C5_candidates_witness :
    (1 ∈ tableGet c5St.user 1 ∨ 1 ∈ tableGet c5St.main 1) ∧
      ∃ m, c5St.heap[1]? = some m ∧
        ∃ nm ∈ m.names, "d".data.isPrefixOf nm.data = true ∧
          "d".length < nm.length ∧ ("d" = "<" → bracketTest nm = false) :=
  (C5_candidates.1 c5St 1 "d" 1).mp (by decide)

/-- Claim C7: `execute` invokes the action with the argument list built by
appending, in fixed order, the motion (only if `motion`), the count (only
if `count`) and the argument (only if `arg`), and returns the action's
result; with `motion := true, count := true, arg := false` and call
values ("w", 5, "x") the action receives exactly ["w", 5]. -/
theorem C7_execute_args :
    (∀ (acts : Nat → List Val → Val) (m : Map) (rep : Option (Nat × List Val))
       (motion count argument : Val),
       (m.execute acts rep motion count argument).1 =
         acts m.action ((if m.motion then [motion] else []) ++
           (if m.count then [count] else []) ++ (if m.arg then [argument] else []))) ∧
    (∀ (acts : Nat → List Val → Val) (rep : Option (Nat × List Val)),
       (Map.execute acts
         { modes := [1], names := ["q"], description := "", action := 7, arg := false,
           count := true, motion := true, route := false, noremap := false,
           silent := false, rhs := none, user := false }
         rep (Val.str "w") (Val.num 5) (Val.str "x")).1 =
         acts 7 [Val.str "w", Val.num 5]) := by
  constructor
  · intro acts m rep motion count argument
    cases hm : m.motion <;> cases hc : m.count <;> cases ha : m.arg <;>
      simp [Map.execute, hm, hc, ha]
  · intro acts rep
    rfl

def c8Map : Map :=
  { modes := [1], names := ["q"], description := "", action := 3, arg := false,
    count := false, motion := false, route := false, noremap := false, silent := false,
    rhs := none, user := false }

def c8DotMap : Map :=
  { modes := [1], names := ["."], description := "", action := 9, arg := false,
    count := false, motion := false, route := false, noremap := false, silent := false,
    rhs := none, user := false }

/-- Claim C8: executing a binding whose primary name is not `"."`
overwrites the repeat slot with a closure replaying the identical action
call with the identical arguments (invoking it yields exactly the
result of the original call); executing a binding whose primary name is
`"."` leaves the repeat slot unchanged. -/
theorem C8_repeat_slot :
    ∀ (acts : Nat → List Val → Val) (m : Map) (rep : Option (Nat × List Val))
      (motion count argument : Val),
      (m.names.head? ≠ some "." →
        (m.execute acts rep motion count argument).2 =
          some (m.action, (if m.motion then [motion] else []) ++
            (if m.count then [count] else []) ++ (if m.arg then [argument] else [])) ∧
        invokeRepeat acts (m.execute acts rep motion count argument).2 =
          some (m.execute acts rep motion count argument).1) ∧
      (m.names.head? = some "." →
        (m.execute acts rep motion count argument).2 = rep) := by
  intro acts m rep motion count argument
  constructor
  · intro h
    constructor
    · cases hm : m.motion <;> cases hc : m.count <;> cases ha : m.arg <;>
        simp [Map.execute, hm, hc, ha, h]
    · simp [Map.execute, invokeRepeat, h]
  · intro h
    simp [Map.execute, h]

/-- Witness for C8: a concrete non-"." binding writes the repeat slot
with its own call; a concrete "."-named binding leaves the previous
repeat slot in place. -/
theorem C8_repeat_slot_witness :
    (c8Map.execute (fun _ _ => Val.undef) none Val.undef Val.undef Val.undef).2 =
      some (3, []) ∧
    (c8DotMap.execute (fun _ _ => Val.undef) (some (5, [Val.num 2]))
        Val.undef Val.undef Val.undef).2 = some (5, [Val.num 2]) :=
  ⟨(((C8_repeat_slot (fun _ _ => Val.undef) c8Map none Val.undef Val.undef Val.undef).1
      (by decide)).1).trans (by decide),
   (C8_repeat_slot (fun _ _ => Val.undef) c8DotMap (some (5, [Val.num 2]))
      Val.undef Val.undef Val.undef).2 (by decide)⟩

lemma getSubstitution_no_dollar (matched before after l : List Char)
    (h : '$' ∉ l) : getSubstitution matched before after l = l := by
  induction l with
  | nil => rfl
  | cons c rest ih =>
    have hc : ¬ c = '$' := fun hh => h (hh ▸ List.mem_cons_self _ _)
    have hrest : '$' ∉ rest := fun hh => h (List.mem_cons_of_mem _ hh)
    cases rest with
    | nil => simp [getSubstitution, hc]
    | cons d rest2 => simp [getSubstitution, hc, ih hrest]

/-- Claim C9, counterexample: with the leader set to "$&", the source's
`expandLeader` does not insert the leader string — `String.replace`
substitutes the matched text for `$&`, so "<Leader>w" maps to itself —
while the spec-worded literal replacement (`expandLeaderSpec`) would
produce "$&w". -/
theorem C9_counterexample :
    expandLeader ⟨fun s => s, some "$&"⟩ "<Leader>w" = "<Leader>w" ∧
    expandLeaderSpec ⟨fun s => s, some "$&"⟩ "<Leader>w" = "$&w" ∧
    ("<Leader>w" : String) ≠ "$&w" := by
  refine ⟨by decide, by decide, by decide⟩

/-- Claim C9 (amended): `expandLeader` replaces the leftmost
case-insensitive `<Leader>` token with the current leader string read
from the process-wide `mapleader` variable (default backslash), the
leader being passed through the JS replacement-pattern substitution;
whenever the leader contains no `$` — in particular "," and the
backslash default — it is inserted literally, and with the leader ","
both "<Leader>w" and "<LEADER>w" expand to ",w".  The function is pure:
it mutates no state. -/
theorem C9_expandLeader :
    (∀ (ctx : Ctx) (s : String), (s.data.take 8).map Char.toLower = leaderToken →
       '$' ∉ (getMapLeader ctx).data →
       expandLeader ctx s = ⟨(getMapLeader ctx).data ++ s.data.drop 8⟩) ∧
    expandLeader ⟨fun s => s, some ","⟩ "<Leader>w" = ",w" ∧
    expandLeader ⟨fun s => s, some ","⟩ "<LEADER>w" = ",w" ∧
    getMapLeader ctx0 = "\\" := by
  refine ⟨?_, by decide, by decide, by decide⟩
  intro ctx s h hd
  cases s with
  | mk data =>
    cases data with
    | nil => simp [leaderToken] at h
    | cons c rest =>
      simp only [expandLeader, replaceLeaderAux]
      rw [if_pos h, getSubstitution_no_dollar _ _ _ _ hd]
      simp

/-- Witness for C9 (amended): the general replacement statement applied
at a mixed-case token with the dollar-free leader "!". -/
theorem C9_expandLeader_witness :
    expandLeader ⟨fun s => s, some "!"⟩ "<LeAdEr>q" = "!q" :=
  (C9_expandLeader.1 ⟨fun s => s, some "!"⟩ "<LeAdEr>q" (by decide) (by decide)).trans
    (by decide)

namespace Mappings

lemma hasName_iff {m : Map} {nm : String} : m.hasName nm = true ↔ nm ∈ m.names := by
  simp [Map.hasName]

lemma tableGet_tableSet (t : ModeTable) (k : Nat) (l : List Nat) (k' : Nat) :
    tableGet (tableSet t k l) k' = if k' = k then l else tableGet t k' := by
  induction t with
  | nil =>
    by_cases h : k' = k
    · subst h
      simp [tableGet, tableSet]
    · simp only [tableSet, tableGet]
      rw [if_neg fun hh : k = k' => h hh.symm, if_neg h]
  | cons p rest ih =>
    by_cases hp : p.1 = k
    · by_cases h : k' = k
      · subst h
        simp [tableGet, tableSet, hp]
      · have hpq : ¬ p.1 = k' := by
          rw [hp]
          exact fun hh => h hh.symm
        simp only [tableSet, if_pos hp, tableGet]
        rw [if_neg fun hh : k = k' => h hh.symm, if_neg h, if_neg hpq]
    · by_cases hq : p.1 = k'
      · have h : ¬ k' = k := fun hh => hp (hq.trans hh)
        simp [tableGet, tableSet, hp, hq, h]
      · simp [tableGet, tableSet, hp, hq, ih]

lemma removeFirst_sublist (cmd : String) (l : List String) :
    (removeFirst cmd l).Sublist l := by
  induction l with
  | nil => simp [removeFirst]
  | cons n rest ih =>
    simp only [removeFirst]
    split_ifs with h
    · exact List.sublist_cons_self n rest
    · exact ih.cons₂ n

lemma count_removeFirst_self (cmd : String) (l : List String) (h : l.count cmd ≤ 1) :
    cmd ∉ removeFirst cmd l := by
  induction l with
  | nil => simp [removeFirst]
  | cons n rest ih =>
    simp only [removeFirst]
    split_ifs with hn
    · subst hn
      rw [List.count_cons_self] at h
      exact List.count_eq_zero.mp (by omega)
    · rw [List.count_cons_of_ne (fun hh => hn hh.symm)] at h
      intro hmem
      rcases List.mem_cons.mp hmem with h1 | h1
      · exact hn h1.symm
      · exact ih h h1

lemma count_removeFirst_le (cmd nm : String) (l : List String) :
    (removeFirst cmd l).count nm ≤ l.count nm :=
  (removeFirst_sublist cmd l).count_le nm

lemma removeMapGo_no_holder (heap : List Map) (cmd : String) (l : List Nat)
    (h : ∀ r ∈ l, holdsName heap cmd r = false) :
    removeMapGo heap cmd l = (heap, l) := by
  induction l with
  | nil => rfl
  | cons ref rest ih =>
    have h0 := h ref (List.mem_cons_self _ _)
    have hrest := ih fun r hr => h r (List.mem_cons_of_mem _ hr)
    cases hm : heap[ref]? with
    | none => simp [removeMapGo, hm, hrest]
    | some m =>
      have hn : m.hasName cmd = false := by
        unfold holdsName at h0
        rw [hm] at h0
        exact h0
      simp [removeMapGo, hm, hn, hrest]

lemma removeMapGo_found (heap : List Map) (cmd : String) (pre post : List Nat)
    (ref : Nat) (m : Map) (hpre : ∀ r ∈ pre, holdsName heap cmd r = false)
    (hm : heap[ref]? = some m) (hname : m.hasName cmd = true) :
    removeMapGo heap cmd (pre ++ ref :: post) =
      (heap.set ref { m with names := removeFirst cmd m.names },
       if (removeFirst cmd m.names).isEmpty then pre ++ post
       else pre ++ ref :: post) := by
  induction pre with
  | nil =>
    simp only [List.nil_append, removeMapGo, hm, hname, if_true]
    split_ifs <;> rfl
  | cons r pre ih =>
    have hr : holdsName heap cmd r = false := hpre r (List.mem_cons_self _ _)
    have hih := ih fun x hx => hpre x (List.mem_cons_of_mem _ hx)
    have hstep : removeMapGo heap cmd (r :: (pre ++ ref :: post)) =
        ((removeMapGo heap cmd (pre ++ ref :: post)).1,
          r :: (removeMapGo heap cmd (pre ++ ref :: post)).2) := by
      cases hmr : heap[r]? with
      | none => simp [removeMapGo, hmr]
      | some mr =>
        have hnr : mr.hasName cmd = false := by
          unfold holdsName at hr
          rw [hmr] at hr
          exact hr
        simp [removeMapGo, hmr, hnr]
    rw [List.cons_append, hstep, hih]
    split_ifs <;> simp

lemma exists_first_holder (heap : List Map) (cmd : String) (l : List Nat)
    (h : ¬ ∀ r ∈ l, holdsName heap cmd r = false) :
    ∃ pre ref post m, l = pre ++ ref :: post ∧
      (∀ r ∈ pre, holdsName heap cmd r = false) ∧
      heap[ref]? = some m ∧ m.hasName cmd = true := by
  induction l with
  | nil => exact absurd (by simp) h
  | cons r rest ih =>
    by_cases hr : holdsName heap cmd r = true
    · cases hm : heap[r]? with
      | none =>
        unfold holdsName at hr
        rw [hm] at hr
        cases hr
      | some m =>
        refine ⟨[], r, rest, m, rfl, by simp, hm, ?_⟩
        unfold holdsName at hr
        rw [hm] at hr
        exact hr
    · have hr' : holdsName heap cmd r = false := by
        cases hb : holdsName heap cmd r
        · rfl
        · exact absurd hb hr
      have hrest : ¬ ∀ x ∈ rest, holdsName heap cmd x = false := by
        intro hall
        exact h fun x hx => by
          rcases List.mem_cons.mp hx with rfl | hx'
          · exact hr'
          · exact hall x hx'
      obtain ⟨pre, ref, post, m, hl, hpre, hm, hname⟩ := ih hrest
      refine ⟨r :: pre, ref, post, m, by rw [hl]; rfl, ?_, hm, hname⟩
      intro x hx
      rcases List.mem_cons.mp hx with rfl | hx'
      · exact hr'
      · exact hpre x hx'

lemma holdsName_heap_set_imp (heap : List Map) (ref : Nat) (m m' : Map)
    (hm : heap[ref]? = some m) (hsub : ∀ nm ∈ m'.names, nm ∈ m.names)
    (nm : String) (r : Nat) (h : holdsName (heap.set ref m') nm r = true) :
    holdsName heap nm r = true := by
  unfold holdsName at h ⊢
  by_cases hr : ref = r
  · subst hr
    have hlt : ref < heap.length := (List.getElem?_eq_some_iff.mp hm).1
    rw [List.getElem?_set_self hlt] at h
    rw [hm]
    rw [hasName_iff] at h ⊢
    exact hsub nm h
  · rw [List.getElem?_set_ne hr] at h
    exact h

lemma removeMapGo_holds_imp (heap : List Map) (cmd : String) (l : List Nat)
    (nm : String) (r : Nat)
    (h : holdsName (removeMapGo heap cmd l).1 nm r = true) :
    holdsName heap nm r = true := by
  by_cases hall : ∀ x ∈ l, holdsName heap cmd x = false
  · rwa [removeMapGo_no_holder _ _ _ hall] at h
  · obtain ⟨pre, ref, post, m, hl, hpre, hm, hname⟩ := exists_first_holder heap cmd l hall
    rw [hl, removeMapGo_found heap cmd pre post ref m hpre hm hname] at h
    exact holdsName_heap_set_imp heap ref m _ hm
      (fun x hx => (removeFirst_sublist cmd m.names).subset hx) nm r h

lemma removeMapGo_heap_length (heap : List Map) (cmd : String) (l : List Nat) :
    (removeMapGo heap cmd l).1.length = heap.length := by
  by_cases hall : ∀ x ∈ l, holdsName heap cmd x = false
  · rw [removeMapGo_no_holder _ _ _ hall]
  · obtain ⟨pre, ref, post, m, hl, hpre, hm, hname⟩ := exists_first_holder heap cmd l hall
    rw [hl, removeMapGo_found heap cmd pre post ref m hpre hm hname]
    exact List.length_set ..

lemma removeMapGo_sublist (heap : List Map) (cmd : String) (l : List Nat) :
    (removeMapGo heap cmd l).2.Sublist l := by
  by_cases hall : ∀ x ∈ l, holdsName heap cmd x = false
  · rw [removeMapGo_no_holder _ _ _ hall]
  · obtain ⟨pre, ref, post, m, hl, hpre, hm, hname⟩ := exists_first_holder heap cmd l hall
    rw [hl, removeMapGo_found heap cmd pre post ref m hpre hm hname]
    split_ifs
    · exact (List.sublist_cons_self ref post).append_left pre
    · exact List.Sublist.refl _

lemma removeMapGo_getElem? (heap : List Map) (cmd : String) (l : List Nat)
    (r : Nat) (m2 : Map) (h : (removeMapGo heap cmd l).1[r]? = some m2) :
    ∃ m1, heap[r]? = some m1 ∧ ∀ nm, m2.names.count nm ≤ m1.names.count nm := by
  by_cases hall : ∀ x ∈ l, holdsName heap cmd x = false
  · rw [removeMapGo_no_holder _ _ _ hall] at h
    exact ⟨m2, h, fun nm => le_refl _⟩
  · obtain ⟨pre, ref, post, m, hl, hpre, hm, hname⟩ := exists_first_holder heap cmd l hall
    rw [hl, removeMapGo_found heap cmd pre post ref m hpre hm hname] at h
    by_cases hr : ref = r
    · subst hr
      have hlt : ref < heap.length := (List.getElem?_eq_some_iff.mp hm).1
      rw [List.getElem?_set_self hlt] at h
      cases h
      exact ⟨m, hm, fun nm => count_removeFirst_le cmd nm m.names⟩
    · rw [List.getElem?_set_ne hr] at h
      exact ⟨m2, h, fun nm => le_refl _⟩

end Mappings

namespace Mappings

lemma removeMap_main (st : MappingsState) (md : Nat) (cmd : String) :
    (removeMap st md cmd).main = st.main := rfl

lemma removeMap_heap_length (st : MappingsState) (md : Nat) (cmd : String) :
    (removeMap st md cmd).heap.length = st.heap.length :=
  removeMapGo_heap_length st.heap cmd (tableGet st.user md)

lemma removeMap_user (st : MappingsState) (md : Nat) (cmd : String) (mode : Nat) :
    tableGet (removeMap st md cmd).user mode =
      if mode = md then (removeMapGo st.heap cmd (tableGet st.user md)).2
      else tableGet st.user mode :=
  tableGet_tableSet st.user md _ mode

lemma removeMap_nameCount_le (st : MappingsState) (md : Nat) (cmd : String)
    (mode : Nat) (nm : String) :
    nameCount (removeMap st md cmd) mode nm ≤ nameCount st mode nm := by
  unfold nameCount
  rw [removeMap_user]
  have hmono : ∀ l : List Nat,
      l.countP (holdsName (removeMap st md cmd).heap nm) ≤
        l.countP (holdsName st.heap nm) := fun l =>
    List.countP_mono_left fun r _ hp => removeMapGo_holds_imp st.heap cmd _ nm r hp
  split_ifs with h
  · subst h
    exact (hmono _).trans (List.Sublist.countP_le _ (removeMapGo_sublist st.heap cmd _))
  · exact hmono _

lemma removeMap_WF (st : MappingsState) (md : Nat) (cmd : String) (h : WF st) :
    WF (removeMap st md cmd) := by
  intro mode ref hr
  rw [removeMap_heap_length]
  rw [removeMap_user] at hr
  split_ifs at hr with hm
  · exact h md ref ((removeMapGo_sublist st.heap cmd _).subset hr)
  · exact h mode ref hr

lemma removeMap_uniqueUser (st : MappingsState) (md : Nat) (cmd : String)
    (h : UniqueUser st) : UniqueUser (removeMap st md cmd) :=
  fun mode nm => (removeMap_nameCount_le st md cmd mode nm).trans (h mode nm)

lemma removeMap_dupFree (st : MappingsState) (md : Nat) (cmd : String)
    (h : NamesDupFree st) : NamesDupFree (removeMap st md cmd) := by
  intro mode ref hr m hm nm
  obtain ⟨m1, hm1, hcount⟩ := removeMapGo_getElem? st.heap cmd (tableGet st.user md) ref m hm
  rw [removeMap_user] at hr
  split_ifs at hr with hmo
  · exact (hcount nm).trans (h md ref ((removeMapGo_sublist st.heap cmd _).subset hr) m1 hm1 nm)
  · exact (hcount nm).trans (h mode ref hr m1 hm1 nm)

lemma removeMap_heap (st : MappingsState) (md : Nat) (cmd : String) :
    (removeMap st md cmd).heap = (removeMapGo st.heap cmd (tableGet st.user md)).1 := rfl

lemma removeMap_kill (st : MappingsState) (md : Nat) (cmd : String)
    (h1 : nameCount st md cmd ≤ 1)
    (h2 : ∀ ref ∈ tableGet st.user md, ∀ m, st.heap[ref]? = some m →
      m.names.count cmd ≤ 1) :
    nameCount (removeMap st md cmd) md cmd = 0 := by
  unfold nameCount
  rw [removeMap_user, if_pos rfl, removeMap_heap]
  by_cases hall : ∀ r ∈ tableGet st.user md, holdsName st.heap cmd r = false
  · rw [removeMapGo_no_holder _ _ _ hall]
    exact List.countP_eq_zero.mpr fun r hr => by simp [hall r hr]
  · obtain ⟨pre, ref, post, m, hl, hpre, hm, hname⟩ :=
      exists_first_holder st.heap cmd _ hall
    have hlt : ref < st.heap.length := (List.getElem?_eq_some_iff.mp hm).1
    have hpref : holdsName st.heap cmd ref = true := by
      unfold holdsName
      rw [hm]
      exact hname
    have hcm : m.names.count cmd ≤ 1 :=
      h2 ref (by rw [hl]; exact List.mem_append_right _ (List.mem_cons_self _ _)) m hm
    have hppost : List.countP (holdsName st.heap cmd) post = 0 := by
      unfold nameCount at h1
      rw [hl, List.countP_append, List.countP_cons_of_pos _ _ hpref] at h1
      omega
    have hnew : Map.hasName { m with names := removeFirst cmd m.names } cmd = false := by
      rw [Bool.eq_false_iff]
      intro hcon
      exact count_removeFirst_self cmd m.names hcm (hasName_iff.mp hcon)
    have hfalse : ∀ r, (r ∈ pre ∨ r ∈ post ∨ r = ref) →
        holdsName (st.heap.set ref { m with names := removeFirst cmd m.names }) cmd r =
          false := by
      intro r hcase
      by_cases hr : ref = r
      · subst hr
        unfold holdsName
        rw [List.getElem?_set_self hlt]
        exact hnew
      · unfold holdsName
        rw [List.getElem?_set_ne hr]
        rcases hcase with h' | h' | h'
        · exact hpre r h'
        · have hz := List.countP_eq_zero.mp hppost r h'
          unfold holdsName at hz
          exact Bool.eq_false_iff.mpr hz
        · exact absurd h'.symm hr
    rw [hl, removeMapGo_found st.heap cmd pre post ref m hpre hm hname]
    split_ifs
    · exact List.countP_eq_zero.mpr fun r hr => by
        rcases List.mem_append.mp hr with h' | h'
        · simp [hfalse r (Or.inl h')]
        · simp [hfalse r (Or.inr (Or.inl h'))]
    · exact List.countP_eq_zero.mpr fun r hr => by
        rcases List.mem_append.mp hr with h' | h'
        · simp [hfalse r (Or.inl h')]
        · rcases List.mem_cons.mp h' with rfl | h''
          · simp [hfalse r (Or.inr (Or.inr rfl))]
          · simp [hfalse r (Or.inr (Or.inl h''))]

end Mappings

namespace Mappings

lemma removeNameModes_main (st : MappingsState) (cmd : String) (mds : List Nat) :
    (removeNameModes st cmd mds).main = st.main := by
  induction mds generalizing st with
  | nil => rfl
  | cons md rest ih => exact (ih _).trans (removeMap_main st md cmd)

lemma removeNameModes_heap_length (st : MappingsState) (cmd : String) (mds : List Nat) :
    (removeNameModes st cmd mds).heap.length = st.heap.length := by
  induction mds generalizing st with
  | nil => rfl
  | cons md rest ih => exact (ih _).trans (removeMap_heap_length st md cmd)

lemma removeNameModes_nameCount_le (st : MappingsState) (cmd : String) (mds : List Nat)
    (mode : Nat) (nm : String) :
    nameCount (removeNameModes st cmd mds) mode nm ≤ nameCount st mode nm := by
  induction mds generalizing st with
  | nil => exact le_refl _
  | cons md rest ih => exact (ih _).trans (removeMap_nameCount_le st md cmd mode nm)

lemma removeNameModes_WF (st : MappingsState) (cmd : String) (mds : List Nat)
    (h : WF st) : WF (removeNameModes st cmd mds) := by
  induction mds generalizing st with
  | nil => exact h
  | cons md rest ih => exact ih _ (removeMap_WF st md cmd h)

lemma removeNameModes_uniqueUser (st : MappingsState) (cmd : String) (mds : List Nat)
    (h : UniqueUser st) : UniqueUser (removeNameModes st cmd mds) := by
  induction mds generalizing st with
  | nil => exact h
  | cons md rest ih => exact ih _ (removeMap_uniqueUser st md cmd h)

lemma removeNameModes_dupFree (st : MappingsState) (cmd : String) (mds : List Nat)
    (h : NamesDupFree st) : NamesDupFree (removeNameModes st cmd mds) := by
  induction mds generalizing st with
  | nil => exact h
  | cons md rest ih => exact ih _ (removeMap_dupFree st md cmd h)

lemma removeNameModes_kill (st : MappingsState) (cmd : String) (mds : List Nat)
    (md : Nat) (hmd : md ∈ mds) (h1 : UniqueUser st) (h2 : NamesDupFree st) :
    nameCount (removeNameModes st cmd mds) md cmd = 0 := by
  induction mds generalizing st with
  | nil => cases hmd
  | cons md0 rest ih =>
    rcases List.mem_cons.mp hmd with rfl | hmem
    · have h0 : nameCount (removeMap st md cmd) md cmd = 0 :=
        removeMap_kill st md cmd (h1 md cmd) fun ref hr m hm => h2 md ref hr m hm cmd
      have hle := removeNameModes_nameCount_le (removeMap st md cmd) cmd rest md cmd
      simp only [removeNameModes]
      omega
    · exact ih _ hmem (removeMap_uniqueUser st md0 cmd h1) (removeMap_dupFree st md0 cmd h2)

lemma removeOld_main (st : MappingsState) (mds : List Nat) (names : List String) :
    (removeOld st mds names).main = st.main := by
  induction names generalizing st with
  | nil => rfl
  | cons cmd rest ih => exact (ih _).trans (removeNameModes_main st cmd mds)

lemma removeOld_heap_length (st : MappingsState) (mds : List Nat) (names : List String) :
    (removeOld st mds names).heap.length = st.heap.length := by
  induction names generalizing st with
  | nil => rfl
  | cons cmd rest ih => exact (ih _).trans (removeNameModes_heap_length st cmd mds)

lemma removeOld_nameCount_le (st : MappingsState) (mds : List Nat) (names : List String)
    (mode : Nat) (nm : String) :
    nameCount (removeOld st mds names) mode nm ≤ nameCount st mode nm := by
  induction names generalizing st with
  | nil => exact le_refl _
  | cons cmd rest ih => exact (ih _).trans (removeNameModes_nameCount_le st cmd mds mode nm)

lemma removeOld_WF (st : MappingsState) (mds : List Nat) (names : List String)
    (h : WF st) : WF (removeOld st mds names) := by
  induction names generalizing st with
  | nil => exact h
  | cons cmd rest ih => exact ih _ (removeNameModes_WF st cmd mds h)

lemma removeOld_uniqueUser (st : MappingsState) (mds : List Nat) (names : List String)
    (h : UniqueUser st) : UniqueUser (removeOld st mds names) := by
  induction names generalizing st with
  | nil => exact h
  | cons cmd rest ih => exact ih _ (removeNameModes_uniqueUser st cmd mds h)

lemma removeOld_dupFree (st : MappingsState) (mds : List Nat) (names : List String)
    (h : NamesDupFree st) : NamesDupFree (removeOld st mds names) := by
  induction names generalizing st with
  | nil => exact h
  | cons cmd rest ih => exact ih _ (removeNameModes_dupFree st cmd mds h)

lemma removeOld_kill (st : MappingsState) (mds : List Nat) (names : List String)
    (md : Nat) (nm : String) (hmd : md ∈ mds) (hnm : nm ∈ names)
    (h1 : UniqueUser st) (h2 : NamesDupFree st) :
    nameCount (removeOld st mds names) md nm = 0 := by
  induction names generalizing st with
  | nil => cases hnm
  | cons cmd rest ih =>
    rcases List.mem_cons.mp hnm with rfl | hmem
    · have h0 := removeNameModes_kill st nm mds md hmd h1 h2
      have hle := removeOld_nameCount_le (removeNameModes st nm mds) mds rest md nm
      simp only [removeOld]
      omega
    · exact ih _ hmem (removeNameModes_uniqueUser st cmd mds h1)
        (removeNameModes_dupFree st cmd mds h2)

lemma tableGet_pushModes (t : ModeTable) (ref : Nat) (mds : List Nat)
    (hnd : mds.Nodup) (mode : Nat) :
    tableGet (pushModes t ref mds) mode =
      tableGet t mode ++ (if mode ∈ mds then [ref] else []) := by
  induction mds generalizing t with
  | nil => simp [pushModes]
  | cons md rest ih =>
    have hnd' : rest.Nodup := (List.nodup_cons.mp hnd).2
    have hmdrest : md ∉ rest := (List.nodup_cons.mp hnd).1
    simp only [pushModes]
    rw [ih _ hnd']
    by_cases hmem : mode ∈ rest
    · have hne : ¬ mode = md := fun hh => hmdrest (hh ▸ hmem)
      rw [tableGet_tableSet, if_neg hne, if_pos hmem,
        if_pos (List.mem_cons_of_mem _ hmem)]
    · rw [tableGet_tableSet, if_neg hmem]
      by_cases he : mode = md
      · subst he
        rw [if_pos rfl, if_pos (List.mem_cons_self _ _), List.append_nil]
      · rw [if_neg he, if_neg (fun hh => by
          rcases List.mem_cons.mp hh with h' | h'
          · exact he h'
          · exact hmem h'), List.append_nil]

end Mappings

namespace Mappings

lemma addMap_user_true (st : MappingsState) (m : Map) (hu : m.user = true) :
    addMap st m =
      { st with heap := st.heap ++ [m],
                user := pushModes st.user st.heap.length m.modes } := by
  simp [addMap, hu]

lemma addUserMap_eq (ctx : Ctx) (st : MappingsState) (mds : List Nat)
    (keys : List String) (descr : String) (act : Nat) (extra : ExtraInfo) :
    addUserMap ctx st mds keys descr act extra =
      addMap (removeOld st mds ((keys.map (expandLeader ctx)).map ctx.canonicalKeys))
        (mkMap ctx mds (keys.map (expandLeader ctx))
          (if descr = "" then "User defined mapping" else descr) act
          { extra with user := true }) := rfl

end Mappings

/-- Claim C2 (amended): provided every involved registration carries a
duplicate-free canonicalized name list, registering a user binding b2
makes b2 the unique reachable binding for each of its (mode, name)
pairs: in any state satisfying the registration invariants (well-formed
refs, at most one user binding per name per mode, duplicate-free name
lists), after `addUserMap` of b2, lookup of any of b2's names in any of
b2's modes returns exactly the newly allocated binding, exactly one user
binding of that mode answers to that name, and all three invariants are
preserved (so the property holds after any sequence of such
registrations). -/
theorem C2_addUserMap_override (ctx : Ctx) (st : MappingsState) (mds : List Nat)
    (keys : List String) (descr : String) (act : Nat) (extra : ExtraInfo)
    (hwf : WF st) (huniq : UniqueUser st) (hdup : NamesDupFree st)
    (hnd : mds.Nodup)
    (hnames : ((keys.map (expandLeader ctx)).map ctx.canonicalKeys).Nodup)
    (md : Nat) (nm : String) (hmd : md ∈ mds) (hmd0 : md ≠ 0)
    (hnm : nm ∈ (keys.map (expandLeader ctx)).map ctx.canonicalKeys) :
    Mappings.get (addUserMap ctx st mds keys descr act extra) md nm =
      some st.heap.length ∧
    nameCount (addUserMap ctx st mds keys descr act extra) md nm = 1 ∧
    WF (addUserMap ctx st mds keys descr act extra) ∧
    UniqueUser (addUserMap ctx st mds keys descr act extra) ∧
    NamesDupFree (addUserMap ctx st mds keys descr act extra) := by
  have hmu : (mkMap ctx mds (keys.map (expandLeader ctx))
      (if descr = "" then "User defined mapping" else descr) act
      { extra with user := true }).user = true := rfl
  rw [addUserMap_eq, addMap_user_true _ _ hmu]
  set nn : List String := (keys.map (expandLeader ctx)).map ctx.canonicalKeys
  set mm : Map := mkMap ctx mds (keys.map (expandLeader ctx))
    (if descr = "" then "User defined mapping" else descr) act
    { extra with user := true }
  set str : MappingsState := removeOld st mds nn
  have hmmnames : mm.names = nn := rfl
  have hmmmodes : mm.modes = mds := rfl
  have hrlen : str.heap.length = st.heap.length := removeOld_heap_length st mds nn
  have hwfr : WF str := removeOld_WF st mds nn hwf
  have huniqr : UniqueUser str := removeOld_uniqueUser st mds nn huniq
  have hdupr : NamesDupFree str := removeOld_dupFree st mds nn hdup
  have hkill : ∀ md' ∈ mds, ∀ nm' ∈ nn, nameCount str md' nm' = 0 :=
    fun md' hmd' nm' hnm' => removeOld_kill st mds nn md' nm' hmd' hnm' huniq hdup
  have htab : ∀ mode, tableGet (pushModes str.user str.heap.length mm.modes) mode =
      tableGet str.user mode ++ (if mode ∈ mds then [str.heap.length] else []) :=
    fun mode => tableGet_pushModes str.user str.heap.length mds hnd mode
  have hheapold : ∀ r, r < str.heap.length → (str.heap ++ [mm])[r]? = str.heap[r]? :=
    fun r hr => List.getElem?_append_left hr
  have hheapnew : (str.heap ++ [mm])[str.heap.length]? = some mm :=
    List.getElem?_concat_length _ _
  have hholdold : ∀ nm' r, r < str.heap.length →
      holdsName (str.heap ++ [mm]) nm' r = holdsName str.heap nm' r := by
    intro nm' r hr
    unfold holdsName
    rw [hheapold r hr]
  have hholdnew : ∀ nm',
      holdsName (str.heap ++ [mm]) nm' str.heap.length = mm.hasName nm' := by
    intro nm'
    unfold holdsName
    rw [hheapnew]
  have hcount_eq : ∀ mode nm',
      (tableGet str.user mode).countP (holdsName (str.heap ++ [mm]) nm') =
        (tableGet str.user mode).countP (holdsName str.heap nm') := by
    intro mode nm'
    exact List.countP_congr fun r hr => by
      rw [hholdold nm' r (hwfr mode r hr)]
  have hprednew : holdsName (str.heap ++ [mm]) nm str.heap.length = true := by
    rw [hholdnew, hasName_iff, hmmnames]
    exact hnm
  refine ⟨?_, ?_, ?_, ?_, ?_⟩
  · -- lookup returns the new binding
    show Mappings.get
      { str with heap := str.heap ++ [mm],
                 user := pushModes str.user str.heap.length mm.modes } md nm =
        some st.heap.length
    unfold Mappings.get
    rw [if_neg hmd0]
    have hfu : getMap (str.heap ++ [mm]) (pushModes str.user str.heap.length mm.modes)
        md nm = some str.heap.length := by
      unfold getMap
      rw [htab md, if_pos hmd, List.find?_append]
      have hnone : (tableGet str.user md).find?
          (holdsName (str.heap ++ [mm]) nm) = none := by
        rw [List.find?_eq_none]
        intro r hr
        rw [hholdold nm r (hwfr md r hr)]
        have hz := hkill md hmd nm hnm
        unfold nameCount at hz
        have := List.countP_eq_zero.mp hz r hr
        simpa using this
      rw [hnone]
      simp [List.find?_cons_of_pos _ hprednew]
    show ((getMap (str.heap ++ [mm]) (pushModes str.user str.heap.length mm.modes)
        md nm).orElse fun _ =>
          getMap (str.heap ++ [mm]) str.main md nm) = some st.heap.length
    rw [hfu, ← hrlen]
    rfl
  · -- exactly one user binding answers to the name
    show (tableGet (pushModes str.user str.heap.length mm.modes) md).countP
        (holdsName (str.heap ++ [mm]) nm) = 1
    rw [htab md, if_pos hmd, List.countP_append, hcount_eq]
    have hz := hkill md hmd nm hnm
    unfold nameCount at hz
    rw [hz, List.countP_singleton, if_pos hprednew]
  · -- WF preserved
    intro mode r hr
    show r < (str.heap ++ [mm]).length
    rw [List.length_append]
    have hr' : r ∈ tableGet (pushModes str.user str.heap.length mm.modes) mode := hr
    rw [htab mode] at hr'
    rcases List.mem_append.mp hr' with h' | h'
    · have := hwfr mode r h'
      omega
    · split_ifs at h' with hmode
      · rcases List.mem_singleton.mp h' with rfl
        simp
      · cases h'
  · -- uniqueness invariant preserved
    intro mode nm'
    show (tableGet (pushModes str.user str.heap.length mm.modes) mode).countP
        (holdsName (str.heap ++ [mm]) nm') ≤ 1
    rw [htab mode]
    by_cases hmode : mode ∈ mds
    · rw [if_pos hmode, List.countP_append, hcount_eq]
      by_cases hn : nm' ∈ nn
      · have hz := hkill mode hmode nm' hn
        unfold nameCount at hz
        rw [hz]
        have := List.countP_le_length
          (p := holdsName (str.heap ++ [mm]) nm') (l := [str.heap.length])
        simpa using this
      · have hpf : holdsName (str.heap ++ [mm]) nm' str.heap.length = false := by
          rw [hholdnew]
          rw [Bool.eq_false_iff]
          intro hcon
          exact hn (hmmnames ▸ hasName_iff.mp hcon)
        rw [List.countP_singleton, if_neg (by simp [hpf])]
        have := huniqr mode nm'
        unfold nameCount at this
        omega
    · rw [if_neg hmode, List.append_nil, hcount_eq]
      exact huniqr mode nm'
  · -- duplicate-free names preserved
    intro mode r hr m' hm' nm'
    have hr' : r ∈ tableGet (pushModes str.user str.heap.length mm.modes) mode := hr
    have hmq : (str.heap ++ [mm])[r]? = some m' := hm'
    rw [htab mode] at hr'
    rcases List.mem_append.mp hr' with h' | h'
    · have hlt := hwfr mode r h'
      have hm'' : str.heap[r]? = some m' := by
        rw [← hheapold r hlt]
        exact hmq
      exact hdupr mode r h' m' hm'' nm'
    · split_ifs at h' with hmode
      · rcases List.mem_singleton.mp h' with rfl
        have : m' = mm := by
          have hh := hheapnew
          rw [hmq] at hh
          exact Option.some_inj.mp hh
        subst this
        rw [show mm.names = nn from hmmnames]
        exact List.nodup_iff_count_le_one.mp hnames nm'
      · cases h'

namespace Mappings

lemma emptyState_WF : WF emptyState :=
  fun mode ref hr => by simp [tableGet, emptyState] at hr

lemma emptyState_uniqueUser : UniqueUser emptyState :=
  fun mode cmd => by simp [nameCount, tableGet, emptyState]

lemma emptyState_dupFree : NamesDupFree emptyState :=
  fun mode ref hr => by simp [tableGet, emptyState] at hr

end Mappings

def c2wSt : MappingsState := addUserMap ctx0 emptyState [1] ["x"] "" 0 {}

/-- Witness for C2 (amended): starting from the empty engine, registering
user binding b1 named "x" and then user binding b2 named "x" in mode 1
leaves lookup returning the fresh b2 (ref 1), with exactly one user
binding of mode 1 answering to "x". -/
theorem C2_addUserMap_override_witness :
    Mappings.get (addUserMap ctx0 c2wSt [1] ["x"] "" 1 {}) 1 "x" = some 1 ∧
    nameCount (addUserMap ctx0 c2wSt [1] ["x"] "" 1 {}) 1 "x" = 1 := by
  have hbase := C2_addUserMap_override ctx0 emptyState [1] ["x"] "" 0 {}
    emptyState_WF emptyState_uniqueUser emptyState_dupFree (by decide) (by decide)
    1 "x" (by decide) (by decide) (by decide)
  have hmain := C2_addUserMap_override ctx0 c2wSt [1] ["x"] "" 1 {}
    hbase.2.2.1 hbase.2.2.2.1 hbase.2.2.2.2 (by decide) (by decide)
    1 "x" (by decide) (by decide) (by decide)
  exact ⟨hmain.1, hmain.2.1⟩

def c6StU : MappingsState := addUserMap ctx0 emptyState [1] ["x"] "" 0 {}

def c6StUD : MappingsState :=
  addUserMap ctx0 (add ctx0 emptyState [1] ["x"] "" 0 {}) [1] ["x"] "" 1 {}

def c6TwoSt : MappingsState :=
  { heap := [{ modes := [1], names := ["x"], description := "", action := 0, arg := false,
               count := false, motion := false, route := false, noremap := false,
               silent := false, rhs := none, user := true },
             { modes := [1], names := ["x"], description := "", action := 1, arg := false,
               count := false, motion := false, route := false, noremap := false,
               silent := false, rhs := none, user := true }],
    main := [], user := [(1, [0, 1])] }

def c6XySt : MappingsState :=
  { heap := [{ modes := [1], names := ["x", "y"], description := "", action := 0,
               arg := false, count := false, motion := false, route := false,
               noremap := false, silent := false, rhs := none, user := true }],
    main := [], user := [(1, [0])] }

/-- Claim C6: `remove(mode, name)` is a no-op (no error) when no user
binding of the mode answers to the name: the heap, the default table and
every user ref list are unchanged.  At concrete states: removing a
purely-user binding makes lookup return `none`; removing a user binding
that shadows a default one makes lookup return the default binding
(ref 0); with two user bindings both named "x" only the first loses the
name (and, its name list now empty, is dropped from the table); a binding
named ["x", "y"] loses only "x" and stays in the table. -/
theorem C6_remove (st : MappingsState) (md : Nat) (cmd : String)
    (habs : ∀ r ∈ tableGet st.user md, holdsName st.heap cmd r = false) :
    ((remove st md cmd).heap = st.heap ∧ (remove st md cmd).main = st.main ∧
      ∀ mode, tableGet (remove st md cmd).user mode = tableGet st.user mode) ∧
    Mappings.get (remove c6StU 1 "x") 1 "x" = none ∧
    Mappings.get (remove c6StUD 1 "x") 1 "x" = some 0 ∧
    ((remove c6TwoSt 1 "x").heap[0]?.map Map.names = some [] ∧
      (remove c6TwoSt 1 "x").heap[1]?.map Map.names = some ["x"] ∧
      tableGet (remove c6TwoSt 1 "x").user 1 = [1]) ∧
    ((remove c6XySt 1 "x").heap[0]?.map Map.names = some ["y"] ∧
      tableGet (remove c6XySt 1 "x").user 1 = [0]) := by
  refine ⟨?_, by decide, by decide, ⟨by decide, by decide, by decide⟩,
    by decide, by decide⟩
  have hgo := removeMapGo_no_holder st.heap cmd (tableGet st.user md) habs
  refine ⟨?_, rfl, ?_⟩
  · show (removeMapGo st.heap cmd (tableGet st.user md)).1 = st.heap
    rw [hgo]
  · intro mode
    show tableGet
        (tableSet st.user md (removeMapGo st.heap cmd (tableGet st.user md)).2) mode =
      tableGet st.user mode
    rw [hgo, tableGet_tableSet]
    split_ifs with h
    · subst h
      rfl
    · rfl

/-- Witness for C6: removing an unbound name from a concrete state leaves
the heap and the mode-1 user list unchanged. -/
theorem C6_remove_witness :
    (remove c6StU 1 "zz").heap = c6StU.heap ∧
    tableGet (remove c6StU 1 "zz").user 1 = tableGet c6StU.user 1 := by
  have h := (C6_remove c6StU 1 "zz" (by decide)).1
  exact ⟨h.1, h.2.2 1⟩

/-- Claim C10: a user binding registered under several modes is one shared
object; when the first binding of mode `md` answering to `nm` holds only
the single name `nm`, `remove md nm` empties that shared object's name
list (the heap cell is updated in place), removes it from `md`'s list,
leaves every other mode's ref list untouched (the stale object remains
there), and the object answers to `nm` in no mode any more — lookup can
no longer return it in any mode. -/
theorem C10_shared_object (st : MappingsState) (md : Nat) (nm : String)
    (pre post : List Nat) (ref : Nat) (mo : Map)
    (hl : tableGet st.user md = pre ++ ref :: post)
    (hpre : ∀ r ∈ pre, holdsName st.heap nm r = false)
    (hmo : st.heap[ref]? = some mo)
    (honly : mo.names = [nm]) :
    (remove st md nm).heap = st.heap.set ref { mo with names := [] } ∧
    (∀ mode, mode ≠ md → tableGet (remove st md nm).user mode = tableGet st.user mode) ∧
    tableGet (remove st md nm).user md = pre ++ post ∧
    holdsName (remove st md nm).heap nm ref = false ∧
    (∀ mode, getMap (remove st md nm).heap (remove st md nm).user mode nm ≠ some ref) := by
  have hname : mo.hasName nm = true := by
    rw [hasName_iff, honly]
    exact List.mem_cons_self _ _
  have hrf : removeFirst nm mo.names = [] := by
    rw [honly]
    simp [removeFirst]
  have hgo := removeMapGo_found st.heap nm pre post ref mo hpre hmo hname
  have hemp : (removeFirst nm mo.names).isEmpty = true := by
    rw [hrf]
    rfl
  rw [if_pos hemp, hrf] at hgo
  have hlt : ref < st.heap.length := (List.getElem?_eq_some_iff.mp hmo).1
  have hheap : (remove st md nm).heap = st.heap.set ref { mo with names := [] } := by
    show (removeMapGo st.heap nm (tableGet st.user md)).1 = _
    rw [hl, hgo]
  have huser : ∀ mode, tableGet (remove st md nm).user mode =
      if mode = md then pre ++ post else tableGet st.user mode := by
    intro mode
    show tableGet
        (tableSet st.user md (removeMapGo st.heap nm (tableGet st.user md)).2) mode = _
    rw [hl, hgo, tableGet_tableSet]
  have hhold : holdsName (remove st md nm).heap nm ref = false := by
    rw [hheap]
    unfold holdsName
    rw [List.getElem?_set_self hlt]
    rw [Bool.eq_false_iff]
    intro hcon
    rw [hasName_iff] at hcon
    exact List.not_mem_nil nm hcon
  refine ⟨hheap, ?_, ?_, hhold, ?_⟩
  · intro mode hne
    rw [huser mode, if_neg hne]
  · rw [huser md, if_pos rfl]
  · intro mode hcon
    unfold getMap at hcon
    have hp := List.find?_some hcon
    rw [hhold] at hp
    cases hp

def c10St : MappingsState := addUserMap ctx0 emptyState [1, 2] ["x"] "" 0 {}

def c10Mo : Map :=
  { modes := [1, 2], names := ["x"], description := "User defined mapping", action := 0,
    arg := false, count := false, motion := false, route := false, noremap := false,
    silent := false, rhs := none, user := true }

/-- Witness for C10: the shared binding registered under modes {1, 2} —
after `remove 1 "x"` its ref is still listed in mode 2's user table, but
lookup of "x" in mode 2 can no longer return it. -/
theorem C10_shared_object_witness :
    tableGet (remove c10St 1 "x").user 2 = [0] ∧
    getMap (remove c10St 1 "x").heap (remove c10St 1 "x").user 2 "x" ≠ some 0 := by
  have h := C10_shared_object c10St 1 "x" [] [] 0 c10Mo
    (by decide) (by decide) (by decide) (by decide)
  exact ⟨(h.2.1 2 (by decide)).trans (by decide), h.2.2.2.2 2⟩

/-- Witness for C3: the membership characterization applied to the
concrete two-mode scenario — the shared binding (ref 0) is yielded because
mode 2's table holds a counterpart with the same rhs and primary name. -/
theorem C3_consistent_view_witness :
    0 ∈ tableGet c3St1.user 1 ∧
      ∀ md ∈ [2], ∃ r2 ∈ tableGet c3St1.user md,
        refRhs c3St1.heap r2 = refRhs c3St1.heap 0 ∧
        refPrimary c3St1.heap r2 = refPrimary c3St1.heap 0 :=
  (C3_consistent_view.1 c3St1.heap c3St1.user 1 [2] 0).mp (by decide)
